import Mathlib

/-!
Verification of the WHATWG-URL IPv4 parser (`src/lib.rs`).

The Rust parser walks a byte slice with a cursor index `i`; here the cursor
state is embedded as the list of bytes not yet consumed, so every function is
structurally recursive and fully computable.  A read of the current byte when
the cursor is at the end of the input (which would panic in Rust, since
`self.s[self.i]` is a checked index) is modelled by the distinguished error
`PErr.oob`; all grammar failures are `PErr.notAnIp`, mirroring the single
`NotAnIp` error of the source.
-/

namespace UrlIpv4

/-- Byte constant `IpParser::DOT` (ASCII `.`). -/
def DOT : Nat := 0x2e

/-- Byte constant `IpParser::ZERO` (ASCII `0`). -/
def ZERO : Nat := 0x30

/-- Byte constant `IpParser::SMALL_X` (ASCII `x`). -/
def SMALL_X : Nat := 0x78

/-- Byte constant `IpParser::BIG_X` (ASCII `X`). -/
def BIG_X : Nat := 0x58

/-- Parse outcome errors.  `notAnIp` is the source's single `NotAnIp` error;
`oob` marks an out-of-bounds read of the input (a panic in the Rust source),
which the safety claim shows to be unreachable from `parse`. -/
inductive PErr where
  | notAnIp : PErr
  | oob : PErr
deriving DecidableEq, Repr

/-- `char::from(b).to_digit(r)` from the Rust standard library, for a byte
`b`: digits `0`-`9` and letters `a`-`z` / `A`-`Z` denote values `0`-`35`,
and the value is accepted only when it is below the radix `r`. -/
def toDigit (b r : Nat) : Option Nat :=
  if 0x30 ≤ b ∧ b ≤ 0x39 then
    if b - 0x30 < r then some (b - 0x30) else none
  else if 0x61 ≤ b ∧ b ≤ 0x7a then
    if b - 0x61 + 10 < r then some (b - 0x61 + 10) else none
  else if 0x41 ≤ b ∧ b ≤ 0x5a then
    if b - 0x41 + 10 < r then some (b - 0x41 + 10) else none
  else none

namespace IpParser

/-- `IpParser::radix`: look at the head of the remaining input and decide the
radix of the current part, consuming the `0` / `0x` / `0X` radix marker.
Fails on end of input, on a part that starts with a dot, and on a `0x`/`0X`
marker that sits at the very end of the input. -/
def radix : List Nat → Except PErr (Nat × List Nat)
  | [] => .error .notAnIp
  | b :: rest =>
    if b = DOT then .error .notAnIp
    else if b = ZERO then
      match rest with
      | [] => .ok (8, [])
      | b2 :: rest2 =>
        if b2 = SMALL_X ∨ b2 = BIG_X then
          if rest2 = [] then .error .notAnIp else .ok (16, rest2)
        else .ok (8, b2 :: rest2)
    else .ok (10, b :: rest)

/-- The `while let Some(x) = char::from(self.c()).to_digit(radix)` loop of
`IpParser::value`: accumulate digits of the given radix into `v`, failing as
soon as the accumulator exceeds `0xffff_ffff`, stopping at end of input or at
the first non-digit byte, which must then be a dot.  The loop is entered only
with a non-empty remainder; an empty remainder is the `oob` panic. -/
def valueLoop (r : Nat) : List Nat → Nat → Except PErr (Nat × List Nat)
  | [], _ => .error .oob
  | b :: rest, v =>
    match toDigit b r with
    | some x =>
      let v2 := v * r + x
      if 0xffffffff < v2 then .error .notAnIp
      else if rest = [] then .ok (v2, rest)
      else valueLoop r rest v2
    | none => if b = DOT then .ok (v, b :: rest) else .error .notAnIp

/-- `IpParser::value`: determine the radix, then return 0 when the radix
marker consumed the whole input, otherwise run the digit-accumulation loop. -/
def value (l : List Nat) : Except PErr (Nat × List Nat) :=
  match radix l with
  | .error e => .error e
  | .ok (r, rest) =>
    if rest = [] then .ok (0, rest)
    else valueLoop r rest 0

/-- Fuel-indexed bit length of a natural number; `bitLen f n` is the exact
bit length of `n` whenever `n < 2 ^ f`. -/
def bitLen : Nat → Nat → Nat
  | 0, _ => 0
  | f + 1, n => if n = 0 then 0 else bitLen f (n / 2) + 1

/-- `u32::leading_zeros` for values below `2 ^ 32`. -/
def leading_zeros (v : Nat) : Nat := 32 - bitLen 32 v

/-- `IpParser::last_part`: the terminal part of value `v` applied at part
index `part` is admissible only when the cursor is at the end of the input
and `v` fits in the remaining `32 - 8 * part` bits of the address. -/
def last_part (v part : Nat) (e : Bool) : Except PErr Nat :=
  if e then
    if leading_zeros v < part * 8 then .error .notAnIp
    else .ok v
  else .error .notAnIp

/-- The body of `IpParser::parse` after the initialization `v = 0`: the
first argument is the number of remaining non-final loop iterations, so the
current part index is `3 -` that number; `parse` starts it at `3`.  Each
non-final part is ORed into the address shifted to its octet position, a
part that is `≥ 256` or ends the input is finished via `last_part` at its
current index, and the part after the loop is unconditionally terminal. -/
def parseRest : Nat → List Nat → Nat → Except PErr Nat
  | 0, l, v =>
    match value l with
    | .error e => .error e
    | .ok (x, rest) =>
      match last_part x 3 rest.isEmpty with
      | .error e => .error e
      | .ok w => .ok (v ||| w)
  | rem + 1, l, v =>
    match value l with
    | .error e => .error e
    | .ok (x, rest) =>
      if 256 ≤ x ∨ rest = [] then
        match last_part x (2 - rem) rest.isEmpty with
        | .error e => .error e
        | .ok w => .ok (v ||| w)
      else
        match rest with
        | [] => .error .oob
        | _ :: rest2 => parseRest rem rest2 (v ||| (x <<< (24 - (2 - rem) * 8)))

/-- `IpParser::parse`: run the three-part loop and the final part over the
whole input, starting from an empty accumulated address. -/
def parse (l : List Nat) : Except PErr Nat := parseRest 3 l 0

end IpParser

/-- `is_ipv4`: whether the core parser succeeds on the input. -/
def is_ipv4 (l : List Nat) : Bool :=
  match IpParser.parse l with
  | .ok _ => true
  | .error _ => false

/-- `std::net::Ipv4Addr`, reduced to its four octets. -/
structure Ipv4Addr where
  o0 : Nat
  o1 : Nat
  o2 : Nat
  o3 : Nat
deriving DecidableEq, Repr

/-- `Ipv4Addr::from(v: u32)`: big-endian octet extraction (`to_be_bytes`). -/
def Ipv4Addr.ofU32 (v : Nat) : Ipv4Addr :=
  ⟨(v >>> 24) % 256, (v >>> 16) % 256, (v >>> 8) % 256, v % 256⟩

/-- The crate-level `parse`: run the core parser and map a success through
`Ipv4Addr::from`. -/
def parse (l : List Nat) : Except PErr Ipv4Addr :=
  (IpParser.parse l).map Ipv4Addr.ofU32

/-- The byte sequence a Rust string literal passes to the parser via
`AsRef<[u8]>` (UTF-8 bytes; used here only on ASCII inputs, where UTF-8
coincides with the code points). -/
def strBytes (s : String) : List Nat :=
  s.data.map Char.toNat

/-- The value denoted by a most-significant-first digit byte list in radix
`r`, Horner-style with accumulator `v`, exactly as the digit loop of
`IpParser::value` accumulates it. -/
def valIn (r : Nat) : List Nat → Nat → Nat
  | [], v => v
  | b :: ds, v => valIn r ds (v * r + (toDigit b r).getD 0)

/-- A canonical decimal numeral: non-empty, all decimal digit bytes, and
with no leading zero (so it carries no octal radix marker) unless it is the
single digit `0`. -/
def CanonDec (ds : List Nat) : Prop :=
  ds ≠ [] ∧ (∀ b ∈ ds, 0x30 ≤ b ∧ b ≤ 0x39) ∧ (ds.head? = some 0x30 → ds = [0x30])

instance (ds : List Nat) : Decidable (CanonDec ds) := by
  unfold CanonDec; infer_instance

/-- The contexts in which a part may legally end: end of input, or a dot
separator immediately following. -/
def DotOrEnd (rest : List Nat) : Prop :=
  rest = [] ∨ rest.head? = some 0x2e

instance (rest : List Nat) : Decidable (DotOrEnd rest) := by
  unfold DotOrEnd; infer_instance

theorem toDigit_dot (r : Nat) : toDigit 0x2e r = none := by
  simp [toDigit]

theorem toDigit_dec (b : Nat) (h1 : 0x30 ≤ b) (h2 : b ≤ 0x39) :
    toDigit b 10 = some (b - 0x30) := by
  unfold toDigit
  rw [if_pos ⟨h1, h2⟩, if_pos (by omega)]

theorem toDigit_oct (b : Nat) (h1 : 0x30 ≤ b) (h2 : b ≤ 0x37) :
    toDigit b 8 = some (b - 0x30) := by
  unfold toDigit
  rw [if_pos ⟨h1, by omega⟩, if_pos (by omega)]

theorem le_valIn (r : Nat) (hr : 1 ≤ r) :
    ∀ (ds : List Nat) (v : Nat), v ≤ valIn r ds v
  | [], v => Nat.le_refl v
  | b :: ds, v => by
    have h1 : v * 1 ≤ v * r := Nat.mul_le_mul (Nat.le_refl v) hr
    exact Nat.le_trans (by omega) (le_valIn r hr ds (v * r + (toDigit b r).getD 0))

/-- The digit loop consumes exactly a maximal digit run: over a non-empty
digit list followed by a dot or the end of input, it succeeds with the
Horner value of the digits, provided that value never overflows 32 bits. -/
theorem valueLoop_digits (r : Nat) (hr : 1 ≤ r) (ds : List Nat) :
    ∀ (rest : List Nat) (v : Nat), ds ≠ [] →
      (∀ b ∈ ds, (toDigit b r).isSome = true) →
      valIn r ds v ≤ 0xffffffff →
      DotOrEnd rest →
      IpParser.valueLoop r (ds ++ rest) v = .ok (valIn r ds v, rest) := by
  induction ds with
  | nil => intro rest v hne; exact absurd rfl hne
  | cons b ds ih =>
    intro rest v _ hds hov hrest
    obtain ⟨x, hx⟩ := Option.isSome_iff_exists.mp (hds b (List.mem_cons_self b ds))
    have hval : valIn r (b :: ds) v = valIn r ds (v * r + x) := by
      simp [valIn, hx]
    rw [hval] at hov ⊢
    have hle : v * r + x ≤ 0xffffffff :=
      Nat.le_trans (le_valIn r hr ds (v * r + x)) hov
    show IpParser.valueLoop r (b :: (ds ++ rest)) v = _
    rw [IpParser.valueLoop, hx]
    simp only
    rw [if_neg (by omega)]
    cases ds with
    | nil =>
      rcases hrest with h | h
      · subst h; rfl
      · cases rest with
        | nil => simp at h
        | cons c t =>
          have hc : c = 0x2e := by simpa using h
          subst hc
          rw [if_neg (by simp)]
          show IpParser.valueLoop r (0x2e :: t) (v * r + x) = _
          rw [IpParser.valueLoop, toDigit_dot]
          rfl
    | cons d ds2 =>
      rw [if_neg (by simp)]
      exact ih rest (v * r + x) (by simp)
        (fun c hc => hds c (List.mem_cons_of_mem b hc)) hov hrest

/-- Unfolding equation for `IpParser::value` once the radix is known. -/
theorem value_eq_of_radix (l m : List Nat) (r : Nat)
    (h : IpParser.radix l = .ok (r, m)) :
    IpParser.value l = if m = [] then .ok (0, m) else IpParser.valueLoop r m 0 := by
  rw [IpParser.value, h]

/-- `IpParser::value` on a bare `"0"` part followed by a dot or the end of
input: the radix marker consumes the whole part and the value is 0. -/
theorem value_zero (rest : List Nat) (hrest : DotOrEnd rest) :
    IpParser.value (0x30 :: rest) = .ok (0, rest) := by
  rcases hrest with h | h
  · subst h; rfl
  · cases rest with
    | nil => simp at h
    | cons c t =>
      have hc : c = 0x2e := by simpa using h
      subst hc; rfl

/-- `IpParser::value` on a canonical decimal numeral followed by a dot or
the end of input yields the numeral's decimal value. -/
theorem value_dec (ds rest : List Nat) (hc : CanonDec ds)
    (hov : valIn 10 ds 0 ≤ 0xffffffff) (hrest : DotOrEnd rest) :
    IpParser.value (ds ++ rest) = .ok (valIn 10 ds 0, rest) := by
  obtain ⟨hne, hdig, hcan⟩ := hc
  cases ds with
  | nil => exact absurd rfl hne
  | cons b t =>
    by_cases hb0 : b = 0x30
    · have hds : b :: t = [0x30] := hcan (by rw [hb0]; rfl)
      rw [hds]
      have hval : valIn 10 [0x30] 0 = 0 := by decide
      rw [hval]
      exact value_zero rest hrest
    · have hb := hdig b (List.mem_cons_self b t)
      have hradix : IpParser.radix ((b :: t) ++ rest) = .ok (10, (b :: t) ++ rest) := by
        show IpParser.radix (b :: (t ++ rest)) = _
        simp only [IpParser.radix]
        rw [if_neg (by unfold DOT; omega), if_neg (by unfold ZERO; omega)]
        rfl
      rw [value_eq_of_radix _ _ _ hradix]
      rw [if_neg (by simp)]
      exact valueLoop_digits 10 (by omega) (b :: t) rest 0 (by simp)
        (fun c hc => by
          have := hdig c hc
          rw [toDigit_dec c this.1 this.2]; rfl)
        hov hrest

/-- `IpParser::value` on a `0`-prefixed octal numeral followed by a dot or
the end of input yields the digits' octal value. -/
theorem value_oct (ds rest : List Nat) (hdig : ∀ b ∈ ds, 0x30 ≤ b ∧ b ≤ 0x37)
    (hov : valIn 8 ds 0 ≤ 0xffffffff) (hrest : DotOrEnd rest) :
    IpParser.value ((0x30 :: ds) ++ rest) = .ok (valIn 8 ds 0, rest) := by
  cases ds with
  | nil =>
    have hval : valIn 8 [] 0 = 0 := rfl
    rw [hval]
    exact value_zero rest hrest
  | cons b t =>
    have hb := hdig b (List.mem_cons_self b t)
    have hradix : IpParser.radix ((0x30 :: b :: t) ++ rest) = .ok (8, (b :: t) ++ rest) := by
      show IpParser.radix (0x30 :: (b :: (t ++ rest))) = _
      simp only [IpParser.radix]
      rw [if_neg (by unfold DOT; omega), if_pos (by unfold ZERO; rfl)]
      rw [if_neg (by unfold SMALL_X BIG_X; omega)]
      rfl
    rw [value_eq_of_radix _ _ _ hradix]
    rw [if_neg (by simp)]
    exact valueLoop_digits 8 (by omega) (b :: t) rest 0 (by simp)
      (fun c hc => by
        have := hdig c hc
        rw [toDigit_oct c this.1 this.2]; rfl)
      hov hrest

/-- `IpParser::value` on a `0x`/`0X`-prefixed hexadecimal numeral with at
least one hex digit, followed by a dot or the end of input, yields the
digits' hexadecimal value. -/
theorem value_hex (px : Nat) (hpx : px = 0x78 ∨ px = 0x58) (ds rest : List Nat)
    (hne : ds ≠ []) (hdig : ∀ b ∈ ds, (toDigit b 16).isSome = true)
    (hov : valIn 16 ds 0 ≤ 0xffffffff) (hrest : DotOrEnd rest) :
    IpParser.value ((0x30 :: px :: ds) ++ rest) = .ok (valIn 16 ds 0, rest) := by
  cases ds with
  | nil => exact absurd rfl hne
  | cons b t =>
    have hradix :
        IpParser.radix ((0x30 :: px :: b :: t) ++ rest) = .ok (16, (b :: t) ++ rest) := by
      show IpParser.radix (0x30 :: (px :: (b :: (t ++ rest)))) = _
      simp only [IpParser.radix]
      rw [if_neg (by unfold DOT; omega), if_pos (by unfold ZERO; rfl)]
      rw [if_pos (by unfold SMALL_X BIG_X; omega), if_neg (by simp)]
      rfl
    rw [value_eq_of_radix _ _ _ hradix]
    rw [if_neg (by simp)]
    exact valueLoop_digits 16 (by omega) (b :: t) rest 0 (by simp) hdig hov hrest

theorem bitLen_le_iff (f : Nat) :
    ∀ (k n : Nat), n < 2 ^ f → (IpParser.bitLen f n ≤ k ↔ n < 2 ^ k) := by
  induction f with
  | zero =>
    intro k n h
    have hn : n = 0 := by simpa using h
    subst hn
    simp [IpParser.bitLen, Nat.pos_pow_of_pos]
  | succ f ih =>
    intro k n h
    by_cases hn : n = 0
    · subst hn; simp [IpParser.bitLen, Nat.pos_pow_of_pos]
    · cases k with
      | zero =>
        simp only [IpParser.bitLen, if_neg hn, Nat.pow_zero]
        omega
      | succ k =>
        have hhalf : n / 2 < 2 ^ f := by
          rw [Nat.pow_succ] at h
          omega
        have hk := ih k (n / 2) hhalf
        simp only [IpParser.bitLen, if_neg hn, Nat.add_le_add_iff_right, hk,
          Nat.pow_succ]
        omega

theorem last_part_eq (v p : Nat) (hv : v < 2 ^ 32) (hp : 8 * p ≤ 32) :
    IpParser.last_part v p true =
      if v < 2 ^ (32 - 8 * p) then .ok v else .error .notAnIp := by
  have h32 : IpParser.bitLen 32 v ≤ 32 := (bitLen_le_iff 32 32 v hv).mpr hv
  have hiff := bitLen_le_iff 32 (32 - 8 * p) v hv
  unfold IpParser.last_part IpParser.leading_zeros
  rw [if_pos rfl]
  by_cases hfit : v < 2 ^ (32 - 8 * p)
  · rw [if_pos hfit, if_neg]
    have := hiff.mpr hfit
    omega
  · rw [if_neg hfit, if_pos]
    by_contra hcon
    exact hfit (hiff.mp (by omega))

theorem last_part_ok (v p : Nat) (e : Bool) (w : Nat)
    (h : IpParser.last_part v p e = .ok w) : e = true ∧ w = v := by
  cases e with
  | false => simp [IpParser.last_part] at h
  | true =>
    refine ⟨rfl, ?_⟩
    unfold IpParser.last_part at h
    rw [if_pos rfl] at h
    by_cases hlz : IpParser.leading_zeros v < p * 8
    · rw [if_pos hlz] at h; exact absurd h (by simp)
    · rw [if_neg hlz] at h
      simpa using h.symm

theorem last_part_ne_oob (v p : Nat) (e : Bool) :
    IpParser.last_part v p e ≠ .error .oob := by
  unfold IpParser.last_part
  split
  · split <;> simp
  · simp

/-- A non-final part below 256 that does not end the input: `parse` consumes
the following dot and ORs the part into its octet slot. -/
theorem parseRest_step (rem : Nat) (l : List Nat) (v x d : Nat) (rest2 : List Nat)
    (hv : IpParser.value l = .ok (x, d :: rest2)) (hx : x < 256) :
    IpParser.parseRest (rem + 1) l v =
      IpParser.parseRest rem rest2 (v ||| (x <<< (24 - (2 - rem) * 8))) := by
  rw [IpParser.parseRest, hv]
  simp only
  rw [if_neg ?hcond]
  case hcond =>
    rintro (h | h)
    · omega
    · exact List.cons_ne_nil d rest2 h

/-- The short-circuit of the non-final loop: a part that is `≥ 256` or ends
the input is immediately finished through the last-part rule at the current
part index. -/
theorem parseRest_short (rem : Nat) (l : List Nat) (v x : Nat) (rest : List Nat)
    (hv : IpParser.value l = .ok (x, rest)) (hsc : 256 ≤ x ∨ rest = []) :
    IpParser.parseRest (rem + 1) l v =
      (IpParser.last_part x (2 - rem) rest.isEmpty).map (fun w => v ||| w) := by
  rw [IpParser.parseRest, hv]
  simp only
  rw [if_pos hsc]
  cases IpParser.last_part x (2 - rem) rest.isEmpty <;> rfl

/-- The unconditional final part after three loop iterations, when it
consumes the rest of the input and fits in 8 bits. -/
theorem parseRest_final_ok (l : List Nat) (v x : Nat)
    (hv : IpParser.value l = .ok (x, [])) (hx : x < 2 ^ 8) :
    IpParser.parseRest 0 l v = .ok (v ||| x) := by
  rw [IpParser.parseRest, hv]
  simp only
  have hlast : IpParser.last_part x 3 (List.isEmpty ([] : List Nat)) = .ok x := by
    show IpParser.last_part x 3 true = .ok x
    rw [last_part_eq x 3 (by omega) (by omega), if_pos (by simpa using hx)]
  rw [hlast]

/-- The digit loop only consumes digit bytes: a success decomposes its input
as a dot-free consumed run followed by the returned remainder, and the run is
empty only when the input starts at a dot. -/
theorem valueLoop_split (r : Nat) (l : List Nat) :
    ∀ (v x : Nat) (rest : List Nat), IpParser.valueLoop r l v = .ok (x, rest) →
      ∃ pre, l = pre ++ rest ∧ 0x2e ∉ pre ∧ (pre = [] → l.head? = some 0x2e) := by
  induction l with
  | nil => intro v x rest h; simp [IpParser.valueLoop] at h
  | cons b t ih =>
    intro v x rest h
    rw [IpParser.valueLoop] at h
    cases hd : toDigit b r with
    | some y =>
      rw [hd] at h
      simp only at h
      have hbd : b ≠ 0x2e := by
        intro hb; rw [hb, toDigit_dot] at hd; exact Option.noConfusion hd
      by_cases hov : 0xffffffff < v * r + y
      · rw [if_pos hov] at h; exact absurd h (by simp)
      · rw [if_neg hov] at h
        by_cases ht : t = []
        · rw [if_pos ht] at h
          simp only [Except.ok.injEq, Prod.mk.injEq] at h
          refine ⟨[b], ?_, ?_, by simp⟩
          · rw [← h.2]; simp [ht]
          · simpa using fun hc => hbd hc.symm
        · rw [if_neg ht] at h
          obtain ⟨pre, hp, hnd, _⟩ := ih _ _ _ h
          refine ⟨b :: pre, by simp [hp], ?_, by simp⟩
          intro hc
          rcases List.mem_cons.mp hc with hc | hc
          · exact hbd hc.symm
          · exact hnd hc
    | none =>
      rw [hd] at h
      simp only at h
      by_cases hbd : b = DOT
      · rw [if_pos hbd] at h
        simp only [Except.ok.injEq, Prod.mk.injEq] at h
        refine ⟨[], by simp [h.2], by simp, ?_⟩
        intro
        rw [hbd]; rfl
      · rw [if_neg hbd] at h; exact absurd h (by simp)

/-- The digit loop stops only at the end of the input or at a dot. -/
theorem valueLoop_rest (r : Nat) (l : List Nat) :
    ∀ (v x : Nat) (rest : List Nat), IpParser.valueLoop r l v = .ok (x, rest) →
      DotOrEnd rest := by
  induction l with
  | nil => intro v x rest h; simp [IpParser.valueLoop] at h
  | cons b t ih =>
    intro v x rest h
    rw [IpParser.valueLoop] at h
    cases hd : toDigit b r with
    | some y =>
      rw [hd] at h
      simp only at h
      by_cases hov : 0xffffffff < v * r + y
      · rw [if_pos hov] at h; exact absurd h (by simp)
      · rw [if_neg hov] at h
        by_cases ht : t = []
        · rw [if_pos ht] at h
          simp only [Except.ok.injEq, Prod.mk.injEq] at h
          exact Or.inl (ht ▸ h.2.symm)
        · rw [if_neg ht] at h
          exact ih _ _ _ h
    | none =>
      rw [hd] at h
      simp only at h
      by_cases hbd : b = DOT
      · rw [if_pos hbd] at h
        simp only [Except.ok.injEq, Prod.mk.injEq] at h
        refine Or.inr ?_
        rw [← h.2, hbd]
        rfl
      · rw [if_neg hbd] at h; exact absurd h (by simp)

/-- The digit loop never reads out of bounds when entered, as `value` enters
it, on a non-empty remainder. -/
theorem valueLoop_ne_oob (r : Nat) (l : List Nat) (hl : l ≠ []) :
    ∀ v, IpParser.valueLoop r l v ≠ .error .oob := by
  induction l with
  | nil => exact absurd rfl hl
  | cons b t ih =>
    intro v h
    rw [IpParser.valueLoop] at h
    cases hd : toDigit b r with
    | some y =>
      rw [hd] at h
      simp only at h
      by_cases hov : 0xffffffff < v * r + y
      · rw [if_pos hov] at h; simp at h
      · rw [if_neg hov] at h
        by_cases ht : t = []
        · rw [if_pos ht] at h; simp at h
        · rw [if_neg ht] at h; exact ih ht _ h
    | none =>
      rw [hd] at h
      simp only at h
      by_cases hbd : b = DOT
      · rw [if_pos hbd] at h; simp at h
      · rw [if_neg hbd] at h; simp at h

/-- `IpParser::radix` reads only bytes it has bounds-checked. -/
theorem radix_ne_oob (l : List Nat) : IpParser.radix l ≠ .error .oob := by
  cases l with
  | nil => simp [IpParser.radix]
  | cons b t =>
    simp only [IpParser.radix]
    split
    · simp
    · split
      · split
        · simp
        · split
          · split <;> simp
          · simp
      · simp

/-- `IpParser::radix` consumes a dot-free run of the input (possibly empty,
in which case the part starts at a non-dot byte). -/
theorem radix_split (l : List Nat) (r : Nat) (m : List Nat)
    (h : IpParser.radix l = .ok (r, m)) :
    ∃ pre, l = pre ++ m ∧ 0x2e ∉ pre ∧ (pre = [] → l.head? ≠ some 0x2e) := by
  cases l with
  | nil => simp [IpParser.radix] at h
  | cons b t =>
    simp only [IpParser.radix] at h
    by_cases hbd : b = DOT
    · rw [if_pos hbd] at h; exact absurd h (by simp)
    · rw [if_neg hbd] at h
      by_cases hb0 : b = ZERO
      · rw [if_pos hb0] at h
        cases t with
        | nil =>
          simp only [Except.ok.injEq, Prod.mk.injEq] at h
          refine ⟨[b], by simp [← h.2], ?_, by simp⟩
          simpa using fun hc => hbd (by rw [← hc]; rfl)
        | cons b2 t2 =>
          simp only at h
          by_cases hx : b2 = SMALL_X ∨ b2 = BIG_X
          · rw [if_pos hx] at h
            by_cases ht2 : t2 = []
            · rw [if_pos ht2] at h; exact absurd h (by simp)
            · rw [if_neg ht2] at h
              simp only [Except.ok.injEq, Prod.mk.injEq] at h
              refine ⟨[b, b2], by simp [← h.2], ?_, by simp⟩
              intro hc
              rcases List.mem_cons.mp hc with hc | hc
              · exact hbd (by rw [← hc]; rfl)
              · rcases List.mem_cons.mp hc with hc | hc
                · rcases hx with hx | hx <;> rw [hx] at hc <;> simp [SMALL_X, BIG_X] at hc
                · simp at hc
          · rw [if_neg hx] at h
            simp only [Except.ok.injEq, Prod.mk.injEq] at h
            refine ⟨[b], by simp [← h.2], ?_, by simp⟩
            simpa using fun hc => hbd (by rw [← hc]; rfl)
      · rw [if_neg hb0] at h
        simp only [Except.ok.injEq, Prod.mk.injEq] at h
        refine ⟨[], by simp [← h.2], by simp, ?_⟩
        intro _ hc
        exact hbd (by simpa [DOT] using hc)

/-- A successful `IpParser::value` consumes a non-empty dot-free run of the
input and stops only at the end of the input or at a dot. -/
theorem value_facts (l : List Nat) (x : Nat) (rest : List Nat)
    (h : IpParser.value l = .ok (x, rest)) :
    (∃ pre, l = pre ++ rest ∧ pre ≠ [] ∧ 0x2e ∉ pre) ∧ DotOrEnd rest := by
  rw [IpParser.value] at h
  cases hr : IpParser.radix l with
  | error e => rw [hr] at h; exact absurd h (by simp)
  | ok pr =>
    obtain ⟨r, m⟩ := pr
    rw [hr] at h
    simp only at h
    obtain ⟨pre0, hl0, hnd0, hpre0⟩ := radix_split l r m hr
    by_cases hm : m = []
    · rw [if_pos hm] at h
      simp only [Except.ok.injEq, Prod.mk.injEq] at h
      subst hm
      obtain ⟨-, hrest⟩ := h
      subst hrest
      refine ⟨⟨pre0, hl0, ?_, hnd0⟩, Or.inl rfl⟩
      intro hpre
      subst hpre
      simp only [List.nil_append] at hl0
      rw [hl0] at hr
      simp [IpParser.radix] at hr
    · rw [if_neg hm] at h
      obtain ⟨pre1, hm1, hnd1, hpre1⟩ := valueLoop_split r m 0 x rest h
      have hrest := valueLoop_rest r m 0 x rest h
      refine ⟨⟨pre0 ++ pre1, by rw [hl0, hm1, List.append_assoc], ?_, ?_⟩, hrest⟩
      · intro hboth
        rcases List.append_eq_nil.mp hboth with ⟨h0, h1⟩
        subst h0 h1
        simp only [List.nil_append] at hl0 hm1
        have hhead : l.head? = some 0x2e := by rw [hl0]; exact hpre1 rfl
        exact hpre0 rfl hhead
      · intro hc
        rcases List.mem_append.mp hc with hc | hc
        · exact hnd0 hc
        · exact hnd1 hc

/-- `IpParser::value` never reads out of bounds. -/
theorem value_ne_oob (l : List Nat) : IpParser.value l ≠ .error .oob := by
  intro h
  rw [IpParser.value] at h
  cases hr : IpParser.radix l with
  | error e =>
    rw [hr] at h
    simp only [Except.error.injEq] at h
    subst h
    exact radix_ne_oob l hr
  | ok pr =>
    obtain ⟨r, m⟩ := pr
    rw [hr] at h
    simp only at h
    by_cases hm : m = []
    · rw [if_pos hm] at h; simp at h
    · rw [if_neg hm] at h
      exact valueLoop_ne_oob r m hm 0 h

/-- No stage of `IpParser::parse` ever reads out of bounds. -/
theorem parseRest_ne_oob : ∀ (rem : Nat) (l : List Nat) (v : Nat),
    IpParser.parseRest rem l v ≠ .error .oob := by
  intro rem
  induction rem with
  | zero =>
    intro l v h
    rw [IpParser.parseRest] at h
    cases hv : IpParser.value l with
    | error e =>
      rw [hv] at h
      simp only [Except.error.injEq] at h
      subst h
      exact value_ne_oob l hv
    | ok pr =>
      obtain ⟨x, rest⟩ := pr
      rw [hv] at h
      simp only at h
      cases hlp : IpParser.last_part x 3 rest.isEmpty with
      | error e =>
        rw [hlp] at h
        simp only [Except.error.injEq] at h
        subst h
        exact last_part_ne_oob x 3 rest.isEmpty hlp
      | ok w => rw [hlp] at h; simp at h
  | succ rem ih =>
    intro l v h
    rw [IpParser.parseRest] at h
    cases hv : IpParser.value l with
    | error e =>
      rw [hv] at h
      simp only [Except.error.injEq] at h
      subst h
      exact value_ne_oob l hv
    | ok pr =>
      obtain ⟨x, rest⟩ := pr
      rw [hv] at h
      simp only at h
      by_cases hsc : 256 ≤ x ∨ rest = []
      · rw [if_pos hsc] at h
        cases hlp : IpParser.last_part x (2 - rem) rest.isEmpty with
        | error e =>
          rw [hlp] at h
          simp only [Except.error.injEq] at h
          subst h
          exact last_part_ne_oob x (2 - rem) rest.isEmpty hlp
        | ok w => rw [hlp] at h; simp at h
      · rw [if_neg hsc] at h
        cases rest with
        | nil => exact hsc (Or.inr rfl)
        | cons d rest2 => exact ih rest2 _ h

/-- A dot-free list trivially has no two adjacent dots. -/
theorem chain_of_no_dot (l : List Nat) (h : 0x2e ∉ l) :
    List.Chain' (fun a b : Nat => ¬(a = 0x2e ∧ b = 0x2e)) l := by
  induction l with
  | nil => simp
  | cons b t ih =>
    rw [List.chain'_cons']
    refine ⟨?_, ih (fun hc => h (List.mem_cons_of_mem b hc))⟩
    intro y _ hcon
    have hb : b = 0x2e := hcon.1
    subst hb
    exact h (List.mem_cons_self _ _)

theorem head_not_dot (pre : List Nat) (hnd : 0x2e ∉ pre) :
    pre.head? ≠ some 0x2e := by
  cases pre with
  | nil => simp
  | cons b t =>
    intro h
    have hb : b = 0x2e := by simpa using h
    subst hb
    exact hnd (List.mem_cons_self _ _)

theorem last_not_dot (pre : List Nat) (hnd : 0x2e ∉ pre) :
    pre.getLast? ≠ some 0x2e := by
  intro h
  obtain ⟨hp, heq⟩ := List.mem_getLast?_eq_getLast (show (0x2e : Nat) ∈ pre.getLast? from h)
  exact hnd (heq ▸ List.getLast_mem hp)

/-- In a list with no two adjacent dots, no decomposition exhibits two
adjacent dots. -/
theorem chain_no_dd (l : List Nat)
    (hc : List.Chain' (fun a b : Nat => ¬(a = 0x2e ∧ b = 0x2e)) l) :
    ∀ s u, l ≠ s ++ 0x2e :: 0x2e :: u := by
  intro s
  induction s generalizing l with
  | nil =>
    intro u h
    subst h
    simp only [List.nil_append] at hc
    rw [List.chain'_cons] at hc
    exact hc.1 ⟨rfl, rfl⟩
  | cons c s ih =>
    intro u h
    subst h
    exact ih (l := s ++ 0x2e :: 0x2e :: u) (by simpa using hc.tail) u rfl

/-- Structure of any successfully parsed input: non-empty, no leading or
trailing dot, no empty middle part, and at most `rem` dots for the loop
stage with `rem` non-final iterations remaining. -/
theorem parseRest_wf : ∀ (rem : Nat) (l : List Nat) (v w : Nat),
    IpParser.parseRest rem l v = .ok w →
    l ≠ [] ∧ l.head? ≠ some 0x2e ∧ l.getLast? ≠ some 0x2e ∧
      List.Chain' (fun a b : Nat => ¬(a = 0x2e ∧ b = 0x2e)) l ∧
      List.count 0x2e l ≤ rem := by
  intro rem
  induction rem with
  | zero =>
    intro l v w h
    rw [IpParser.parseRest] at h
    cases hv : IpParser.value l with
    | error e => rw [hv] at h; exact absurd h (by simp)
    | ok pr =>
      obtain ⟨x, rest⟩ := pr
      rw [hv] at h
      simp only at h
      cases hlp : IpParser.last_part x 3 rest.isEmpty with
      | error e => rw [hlp] at h; exact absurd h (by simp)
      | ok w2 =>
        have hrest : rest = [] := by
          have := (last_part_ok _ _ _ _ hlp).1
          simpa using this
        subst hrest
        obtain ⟨⟨pre, hl, hne, hnd⟩, -⟩ := value_facts l x [] hv
        rw [List.append_nil] at hl
        rw [hl]
        exact ⟨hne, head_not_dot pre hnd, last_not_dot pre hnd,
          chain_of_no_dot pre hnd, by simp [List.count_eq_zero.mpr hnd]⟩
  | succ rem ih =>
    intro l v w h
    rw [IpParser.parseRest] at h
    cases hv : IpParser.value l with
    | error e => rw [hv] at h; exact absurd h (by simp)
    | ok pr =>
      obtain ⟨x, rest⟩ := pr
      rw [hv] at h
      simp only at h
      by_cases hsc : 256 ≤ x ∨ rest = []
      · rw [if_pos hsc] at h
        cases hlp : IpParser.last_part x (2 - rem) rest.isEmpty with
        | error e => rw [hlp] at h; exact absurd h (by simp)
        | ok w2 =>
          have hrest : rest = [] := by
            have := (last_part_ok _ _ _ _ hlp).1
            simpa using this
          subst hrest
          obtain ⟨⟨pre, hl, hne, hnd⟩, -⟩ := value_facts l x [] hv
          rw [List.append_nil] at hl
          rw [hl]
          exact ⟨hne, head_not_dot pre hnd, last_not_dot pre hnd,
            chain_of_no_dot pre hnd, by simp [List.count_eq_zero.mpr hnd]⟩
      · rw [if_neg hsc] at h
        cases rest with
        | nil => exact absurd (Or.inr rfl) hsc
        | cons d rest2 =>
          obtain ⟨⟨pre, hl, hne, hnd⟩, hdot⟩ := value_facts l x (d :: rest2) hv
          have hd : d = 0x2e := by
            rcases hdot with hdot | hdot
            · exact absurd hdot (by simp)
            · simpa using hdot
          subst hd
          obtain ⟨hne2, hhead2, hlast2, hchain2, hcount2⟩ := ih rest2 _ _ h
          rw [hl]
          have hlast : (pre ++ 0x2e :: rest2).getLast? = rest2.getLast? := by
            rw [List.getLast?_append_of_ne_nil pre (by simp)]
            cases rest2 with
            | nil => exact absurd rfl hne2
            | cons e t => exact List.getLast?_cons_cons
          refine ⟨by simp, ?_, ?_, ?_, ?_⟩
          · cases pre with
            | nil => exact absurd rfl hne
            | cons b t =>
              have hb : b ≠ 0x2e := by
                intro hb
                subst hb
                exact hnd (List.mem_cons_self _ _)
              simpa using hb
          · rw [hlast]; exact hlast2
          · rw [List.chain'_append]
            refine ⟨chain_of_no_dot pre hnd, ?_, ?_⟩
            · rw [List.chain'_cons']
              refine ⟨?_, hchain2⟩
              intro y hy hcon
              apply hhead2
              have hmem := Option.mem_def.mp hy
              rw [hcon.2] at hmem
              exact hmem
            · intro a ha b hb hcon
              obtain ⟨hp, heq⟩ := List.mem_getLast?_eq_getLast ha
              have ha2 : a ∈ pre := by rw [heq]; exact List.getLast_mem hp
              rw [hcon.1] at ha2
              exact hnd ha2
          · rw [List.count_append]
            simp only [List.count_cons_self]
            have hc0 : List.count 0x2e pre = 0 := List.count_eq_zero.mpr hnd
            omega

/-- C1: for every string "a.b.c.d" whose four parts are canonical decimal
numerals (no radix marker) with values in 0..255, `IpParser::parse` returns
`Ok` of the 32-bit value with octet a in bits 31-24, b in bits 23-16, c in
bits 15-8 and d in bits 7-0. -/
theorem claim1_dotted_quad_packing (da db dc dd : List Nat)
    (ha : CanonDec da) (hb : CanonDec db) (hc : CanonDec dc) (hd : CanonDec dd)
    (hva : valIn 10 da 0 ≤ 255) (hvb : valIn 10 db 0 ≤ 255)
    (hvc : valIn 10 dc 0 ≤ 255) (hvd : valIn 10 dd 0 ≤ 255) :
    IpParser.parse (da ++ 0x2e :: (db ++ 0x2e :: (dc ++ 0x2e :: dd))) =
      .ok (valIn 10 da 0 <<< 24 ||| valIn 10 db 0 <<< 16 |||
        valIn 10 dc 0 <<< 8 ||| valIn 10 dd 0) := by
  have h1 := value_dec da (0x2e :: (db ++ 0x2e :: (dc ++ 0x2e :: dd))) ha
    (by omega) (Or.inr rfl)
  have h2 := value_dec db (0x2e :: (dc ++ 0x2e :: dd)) hb (by omega) (Or.inr rfl)
  have h3 := value_dec dc (0x2e :: dd) hc (by omega) (Or.inr rfl)
  have h4 := value_dec dd [] hd (by omega) (Or.inl rfl)
  rw [List.append_nil] at h4
  have s1 : IpParser.parse (da ++ 0x2e :: (db ++ 0x2e :: (dc ++ 0x2e :: dd))) =
      IpParser.parseRest 2 (db ++ 0x2e :: (dc ++ 0x2e :: dd))
        (0 ||| valIn 10 da 0 <<< 24) :=
    parseRest_step 2 _ 0 _ 0x2e _ h1 (by omega)
  have s2 : IpParser.parseRest 2 (db ++ 0x2e :: (dc ++ 0x2e :: dd))
        (0 ||| valIn 10 da 0 <<< 24) =
      IpParser.parseRest 1 (dc ++ 0x2e :: dd)
        (0 ||| valIn 10 da 0 <<< 24 ||| valIn 10 db 0 <<< 16) :=
    parseRest_step 1 _ _ _ 0x2e _ h2 (by omega)
  have s3 : IpParser.parseRest 1 (dc ++ 0x2e :: dd)
        (0 ||| valIn 10 da 0 <<< 24 ||| valIn 10 db 0 <<< 16) =
      IpParser.parseRest 0 dd
        (0 ||| valIn 10 da 0 <<< 24 ||| valIn 10 db 0 <<< 16 |||
          valIn 10 dc 0 <<< 8) :=
    parseRest_step 0 _ _ _ 0x2e _ h3 (by omega)
  rw [s1, s2, s3, parseRest_final_ok dd _ _ h4 (by omega), Nat.zero_or]

/-- C1 witness: "1.2.3.4" parses to 0x01020304. -/
theorem claim1_witness : IpParser.parse (strBytes "1.2.3.4") = .ok 0x01020304 :=
  claim1_dotted_quad_packing [0x31] [0x32] [0x33] [0x34]
    (by decide) (by decide) (by decide) (by decide)
    (by decide) (by decide) (by decide) (by decide)

/-- C2: the terminal part at index p absorbs the remaining `32 - 8 * p` bits
of the address, and in particular "127.0.1", "127.1" and "2130706433" all
parse to `Ok 0x7F000001`, the same value as "127.0.0.1". -/
theorem claim2_short_forms :
    (∀ p v, p ≤ 3 → v < 2 ^ (32 - 8 * p) → IpParser.last_part v p true = .ok v) ∧
    IpParser.parse (strBytes "127.0.1") = .ok 0x7F000001 ∧
    IpParser.parse (strBytes "127.1") = .ok 0x7F000001 ∧
    IpParser.parse (strBytes "2130706433") = .ok 0x7F000001 ∧
    IpParser.parse (strBytes "127.0.0.1") = .ok 0x7F000001 := by
  refine ⟨?_, rfl, rfl, rfl, rfl⟩
  intro p v hp hv
  have hv32 : v < 2 ^ 32 :=
    lt_of_lt_of_le hv (Nat.pow_le_pow_right (by omega) (by omega))
  rw [last_part_eq v p hv32 (by omega), if_pos hv]

/-- C2 witness: the last-part rule at index 3 accepts 255. -/
theorem claim2_witness : IpParser.last_part 255 3 true = .ok 255 :=
  claim2_short_forms.1 3 255 (by omega) (by decide)

/-- C3: inside the loop over non-final parts, a part whose value is at least
256 or after which the input is exhausted is finished immediately through
the last-part rule at the current index, ORed onto the accumulated address;
in particular "255.16777215" parses to `Ok 0xFFFFFFFF` and
"0x100.0xff.0xff.0xff" fails. -/
theorem claim3_early_terminal :
    (∀ (rem : Nat) (l : List Nat) (v x : Nat) (rest : List Nat),
      IpParser.value l = .ok (x, rest) → 256 ≤ x ∨ rest = [] →
      IpParser.parseRest (rem + 1) l v =
        (IpParser.last_part x (2 - rem) rest.isEmpty).map (fun w => v ||| w)) ∧
    IpParser.parse (strBytes "255.16777215") = .ok 0xFFFFFFFF ∧
    IpParser.parse (strBytes "0x100.0xff.0xff.0xff") = .error .notAnIp :=
  ⟨fun rem l v x rest hv hsc => parseRest_short rem l v x rest hv hsc, rfl, rfl⟩

/-- C3 witness: "256" alone at loop index 0 goes through the last-part rule
at index 0 with the whole remaining bit budget. -/
theorem claim3_witness :
    IpParser.parseRest 1 (strBytes "256") 0 =
      (IpParser.last_part 256 2 true).map (fun w => 0 ||| w) :=
  claim3_early_terminal.1 0 (strBytes "256") 0 256 [] rfl (Or.inl (by omega))

/-- C4: a part whose digit accumulation exceeds 2^32 - 1 fails at the digit
where it first exceeds it, and the terminal bit budget is exact: the
whole-address form 4294967295 succeeds while 4294967296 fails, and at part
index 3 the value 255 succeeds while 256 fails. -/
theorem claim4_overflow_boundary :
    (∀ (r b v x : Nat) (rest : List Nat), toDigit b r = some x →
      0xffffffff < v * r + x →
      IpParser.valueLoop r (b :: rest) v = .error .notAnIp) ∧
    IpParser.parse (strBytes "4294967295") = .ok 0xFFFFFFFF ∧
    IpParser.parse (strBytes "4294967296") = .error .notAnIp ∧
    IpParser.parse (strBytes "0.0.0.255") = .ok 255 ∧
    IpParser.parse (strBytes "0.0.0.256") = .error .notAnIp := by
  refine ⟨?_, rfl, rfl, rfl, rfl⟩
  intro r b v x rest hx hov
  rw [IpParser.valueLoop, hx]
  simp only
  rw [if_pos hov]

/-- C4 witness: one digit past the 32-bit maximum fails. -/
theorem claim4_witness :
    IpParser.valueLoop 10 [0x39] 429496729 = .error .notAnIp :=
  claim4_overflow_boundary.1 10 0x39 429496729 9 [] rfl (by omega)

/-- C5: for any part value, decimal, `0`-prefixed octal and `0x`/`0X`-prefixed
hexadecimal spellings of that value produce the same `value` result in any
part position, and the part loop cannot distinguish inputs whose `value`
results agree; in particular "255.255.65535" and "0xff.0xffffff" parse to
the same address as "255.255.255.255". -/
theorem claim5_radix_equivalence :
    (∀ (n : Nat) (rest : List Nat), DotOrEnd rest → n ≤ 0xffffffff →
      (∀ dsd, CanonDec dsd → valIn 10 dsd 0 = n →
        IpParser.value (dsd ++ rest) = .ok (n, rest)) ∧
      (∀ dso, (∀ b ∈ dso, 0x30 ≤ b ∧ b ≤ 0x37) → valIn 8 dso 0 = n →
        IpParser.value ((0x30 :: dso) ++ rest) = .ok (n, rest)) ∧
      (∀ px dsh, px = 0x78 ∨ px = 0x58 → dsh ≠ [] →
        (∀ b ∈ dsh, (toDigit b 16).isSome = true) → valIn 16 dsh 0 = n →
        IpParser.value ((0x30 :: px :: dsh) ++ rest) = .ok (n, rest))) ∧
    (∀ (rem : Nat) (l1 l2 : List Nat) (v x : Nat) (rest : List Nat),
      IpParser.value l1 = .ok (x, rest) → IpParser.value l2 = .ok (x, rest) →
      IpParser.parseRest rem l1 v = IpParser.parseRest rem l2 v) ∧
    IpParser.parse (strBytes "255.255.65535") =
      IpParser.parse (strBytes "255.255.255.255") ∧
    IpParser.parse (strBytes "0xff.0xffffff") =
      IpParser.parse (strBytes "255.255.255.255") := by
  refine ⟨?_, ?_, rfl, rfl⟩
  · intro n rest hrest hn
    refine ⟨?_, ?_, ?_⟩
    · intro dsd hc hval
      rw [← hval]
      exact value_dec dsd rest hc (by rw [hval]; exact hn) hrest
    · intro dso hdig hval
      rw [← hval]
      exact value_oct dso rest hdig (by rw [hval]; exact hn) hrest
    · intro px dsh hpx hne hdig hval
      rw [← hval]
      exact value_hex px hpx dsh rest hne hdig (by rw [hval]; exact hn) hrest
  · intro rem l1 l2 v x rest h1 h2
    cases rem with
    | zero =>
      rw [IpParser.parseRest, h1]
      rw [IpParser.parseRest, h2]
    | succ rem =>
      rw [IpParser.parseRest, h1]
      rw [IpParser.parseRest, h2]

/-- C5 witness: the decimal spelling of 255 in terminal position. -/
theorem claim5_witness :
    IpParser.value ([0x32, 0x35, 0x35] ++ []) = .ok (255, []) :=
  (claim5_radix_equivalence.1 255 [] (Or.inl rfl) (by omega)).1
    [0x32, 0x35, 0x35] (by decide) (by decide)

/-- C6: `parse` fails with the single `NotAnIp` error on the empty input, on
a bare `0x`/`0X`, on a non-digit where a digit is required, and (by
contraposition of the structure of successful inputs) on any input with an
empty part — leading dot, trailing dot, or two adjacent dots — and on any
input with more than 4 dot-separated parts (that is, 4 or more dots); every
failure is that one error. -/
theorem claim6_failure_classes :
    IpParser.parse [] = .error .notAnIp ∧
    IpParser.parse [0x30, 0x78] = .error .notAnIp ∧
    IpParser.parse [0x30, 0x58] = .error .notAnIp ∧
    IpParser.parse (strBytes "0xg") = .error .notAnIp ∧
    (∀ (r b : Nat) (rest : List Nat) (v : Nat), toDigit b r = none → b ≠ 0x2e →
      IpParser.valueLoop r (b :: rest) v = .error .notAnIp) ∧
    (∀ l w, IpParser.parse l = .ok w →
      l ≠ [] ∧ l.head? ≠ some 0x2e ∧ l.getLast? ≠ some 0x2e ∧
        (∀ s u, l ≠ s ++ 0x2e :: 0x2e :: u) ∧ List.count 0x2e l ≤ 3) ∧
    (∀ l e, IpParser.parse l = .error e → e = .notAnIp) := by
  refine ⟨rfl, rfl, rfl, rfl, ?_, ?_, ?_⟩
  · intro r b rest v hnone hbd
    rw [IpParser.valueLoop, hnone]
    simp only
    rw [if_neg (fun hc => hbd (by simpa [DOT] using hc))]
  · intro l w h
    obtain ⟨hne, hhead, hlast, hchain, hcount⟩ := parseRest_wf 3 l 0 w h
    exact ⟨hne, hhead, hlast, chain_no_dd l hchain, hcount⟩
  · intro l e h
    cases e with
    | notAnIp => rfl
    | oob => exact absurd h (parseRest_ne_oob 3 l 0)

/-- C6 witness: the structure facts at the accepted input "1.2". -/
theorem claim6_witness :
    strBytes "1.2" ≠ [] ∧ (strBytes "1.2").head? ≠ some 0x2e ∧
      (strBytes "1.2").getLast? ≠ some 0x2e ∧
      (∀ s u, strBytes "1.2" ≠ s ++ 0x2e :: 0x2e :: u) ∧
      List.count 0x2e (strBytes "1.2") ≤ 3 :=
  claim6_failure_classes.2.2.2.2.2.1 (strBytes "1.2") 0x01000002 rfl

/-- C7: a part that is just the hex marker `0x`/`0X` is accepted with value 0
whenever a dot immediately follows the marker, and fails when the marker
sits at the end of the input; in particular "0x.1" parses to `Ok 1`, the
same as "0.0.0.1". -/
theorem claim7_bare_hex_zero :
    (∀ (px : Nat) (rest : List Nat), px = 0x78 ∨ px = 0x58 →
      IpParser.value (0x30 :: px :: 0x2e :: rest) = .ok (0, 0x2e :: rest) ∧
      IpParser.value [0x30, px] = .error .notAnIp) ∧
    IpParser.parse (strBytes "0x.1") = .ok 1 ∧
    IpParser.parse (strBytes "0.0.0.1") = .ok 1 := by
  refine ⟨?_, rfl, rfl⟩
  intro px rest hpx
  rcases hpx with h | h <;> subst h <;> exact ⟨rfl, rfl⟩

/-- C7 witness: "0x." followed by "1". -/
theorem claim7_witness :
    IpParser.value (0x30 :: 0x78 :: 0x2e :: [0x31]) = .ok (0, 0x2e :: [0x31]) :=
  (claim7_bare_hex_zero.1 0x78 [0x31] (Or.inl rfl)).1

/-- C8: `is_ipv4` is true exactly when the core parse succeeds, and the typed
`parse` maps a core success `v` to the 4-octet address with byte 0 taken
from bits 31-24 of `v` down to byte 3 from bits 7-0, propagating the error
unchanged otherwise. -/
theorem claim8_facade (l : List Nat) :
    (is_ipv4 l = true ↔ ∃ v, IpParser.parse l = .ok v) ∧
    (∀ v, IpParser.parse l = .ok v →
      parse l = .ok ⟨(v >>> 24) % 256, (v >>> 16) % 256, (v >>> 8) % 256, v % 256⟩) ∧
    (∀ e, IpParser.parse l = .error e → parse l = .error e) := by
  cases h : IpParser.parse l with
  | ok v =>
    refine ⟨by simp [is_ipv4, h], ?_, ?_⟩
    · intro v2 h2
      simp only [Except.ok.injEq] at h2
      subst h2
      simp [parse, h, Except.map, Ipv4Addr.ofU32]
    · intro e h2
      exact absurd h2 (by simp)
  | error e =>
    refine ⟨by simp [is_ipv4, h], ?_, ?_⟩
    · intro v h2
      exact absurd h2 (by simp)
    · intro e2 h2
      simp only [Except.error.injEq] at h2
      subst h2
      simp [parse, h, Except.map]

/-- C8 witness: the typed parse of "1.2.3.4". -/
theorem claim8_witness : parse (strBytes "1.2.3.4") = .ok ⟨1, 2, 3, 4⟩ :=
  (claim8_facade (strBytes "1.2.3.4")).2.1 0x01020304 rfl

/-- C9: no parse ever reads out of bounds — the embedded out-of-bounds
outcome is unreachable from `parse` on every input — and every successful
`value` call leaves a remainder that is a suffix of its input, so the cursor
position always stays within the input's length. -/
theorem claim9_no_oob (l : List Nat) :
    IpParser.parse l ≠ .error .oob ∧
    (∀ (x : Nat) (rest : List Nat), IpParser.value l = .ok (x, rest) →
      rest.length ≤ l.length ∧ ∃ pre, l = pre ++ rest) := by
  refine ⟨parseRest_ne_oob 3 l 0, ?_⟩
  intro x rest h
  obtain ⟨⟨pre, hl, hne, -⟩, -⟩ := value_facts l x rest h
  refine ⟨?_, pre, hl⟩
  rw [hl, List.length_append]
  omega

/-- C9 witness: the suffix fact at "1.2". -/
theorem claim9_witness :
    ([0x2e, 0x32] : List Nat).length ≤ (strBytes "1.2").length ∧
      ∃ pre, strBytes "1.2" = pre ++ [0x2e, 0x32] :=
  (claim9_no_oob (strBytes "1.2")).2 1 [0x2e, 0x32] rfl

/-- C10: `parse` is total — every input yields a success or the single
error — the scan is strictly left to right: every successful `value` call
strictly shrinks the remaining input, and the digit loop only peels bytes
off the front of its input, so the input is traversed at most once. -/
theorem claim10_single_pass :
    (∀ l, (∃ v, IpParser.parse l = .ok v) ∨ IpParser.parse l = .error .notAnIp) ∧
    (∀ (l : List Nat) (x : Nat) (rest : List Nat),
      IpParser.value l = .ok (x, rest) → rest.length < l.length) ∧
    (∀ (r : Nat) (l : List Nat) (v x : Nat) (rest : List Nat),
      IpParser.valueLoop r l v = .ok (x, rest) → ∃ pre, l = pre ++ rest) := by
  refine ⟨?_, ?_, ?_⟩
  · intro l
    cases h : IpParser.parse l with
    | ok v => exact Or.inl ⟨v, rfl⟩
    | error e =>
      cases e with
      | notAnIp => exact Or.inr rfl
      | oob => exact absurd h (parseRest_ne_oob 3 l 0)
  · intro l x rest h
    obtain ⟨⟨pre, hl, hne, -⟩, -⟩ := value_facts l x rest h
    rw [hl, List.length_append]
    have hpos : 0 < pre.length := List.length_pos.mpr hne
    omega
  · intro r l v x rest h
    obtain ⟨pre, hp, -, -⟩ := valueLoop_split r l v x rest h
    exact ⟨pre, hp⟩

/-- C10 witness: the strict-progress fact at "1.2". -/
theorem claim10_witness :
    ([0x2e, 0x32] : List Nat).length < (strBytes "1.2").length :=
  claim10_single_pass.2.1 (strBytes "1.2") 1 [0x2e, 0x32] rfl

end UrlIpv4
